import Mathlib

/-!
Verification of the django-pgcrypto encryption envelope subsystem
(`pgcrypto/fields.py`) against its specification.

Modelling conventions:
* Byte strings and stored text values are modelled as `List Nat` with every
  element below 256.  The configured charset's encode/decode pair is modelled
  as the identity on these byte sequences (values are carried in their
  encoded form).
* The keyed block-cipher primitive supplied by the external Cryptodome
  library is a parameter `Efam` / `Dfam : List Nat → List Nat → List Nat`
  (key, then one block).  CBC chaining with the all-zero IV that
  `Cipher.get_cipher` requests from the library is modelled explicitly.
* The helper module `pgcrypto/base.py` (`pad`, `unpad`, `armor`, `dearmor`,
  `is_encrypted`, `aes_pad_key`) is not part of the sources at hand; those
  functions are modelled from the specification and marked as such in their
  doc comments.
* Fallible Python operations return `Except PyErr`.
-/

/-- Python-level failures surfaced by the envelope subsystem: decode/format
errors from the armor and padding codecs, the constructor's cipher-name
assertion, and the exceptions raised inside the lookup translator. -/
inductive PyErr where
  | decodeError
  | badVersion
  | assertionError
  | notImplementedError (lookupName : String)
  | attributeError (attr : String)
  | keyError (k : String)
deriving DecidableEq, Repr

/-- Character of the base64-family text-safe alphabet at index `i < 64`
(`A`-`Z`, `a`-`z`, `0`-`9`, `+`, `/`, given as character codes). -/
def b64chr (i : Nat) : Nat :=
  if i < 26 then 65 + i
  else if i < 52 then 97 + (i - 26)
  else if i < 62 then 48 + (i - 52)
  else if i = 62 then 43
  else 47

/-- Index of a character code in the text-safe alphabet, `none` when the
character does not belong to the alphabet. -/
def b64idx (c : Nat) : Option Nat :=
  if 65 ≤ c ∧ c ≤ 90 then some (c - 65)
  else if 97 ≤ c ∧ c ≤ 122 then some (26 + (c - 97))
  else if 48 ≤ c ∧ c ≤ 57 then some (52 + (c - 48))
  else if c = 43 then some 62
  else if c = 47 then some 63
  else none

/-- Modelled from the spec: the armor codec's text-safe encoding
("encodes raw bytes into a text-safe alphabet (base64-family)",
`pgcrypto/base.py` is not among the sources).  Each byte is rendered as two
alphabet characters, high six bits first. -/
def b64encode : List Nat → List Nat
  | [] => []
  | b :: rest => b64chr (b / 64) :: b64chr (b % 64) :: b64encode rest

/-- Modelled from the spec: inverse of the text-safe encoding; fails with a
format error when a character is outside the alphabet, the length is odd, or
a pair does not denote a byte. -/
def b64decode : List Nat → Except PyErr (List Nat)
  | [] => Except.ok []
  | [_] => Except.error PyErr.decodeError
  | c1 :: c2 :: rest =>
    match b64idx c1, b64idx c2 with
    | some i, some j =>
      if i < 4 then
        match b64decode rest with
        | Except.ok bs => Except.ok ((64 * i + j) :: bs)
        | Except.error e => Except.error e
      else Except.error PyErr.decodeError
    | _, _ => Except.error PyErr.decodeError

/-- Modelled from the spec: the single version marker character prefixed to
versioned envelopes; it lies outside the text-safe alphabet so that
unversioned-looking text is never mistaken for a versioned envelope. -/
def VERSION_MARKER : Nat := 36

/-- Modelled from the spec: `armor(bytes, versioned) -> text` encodes the raw
bytes into the text-safe alphabet and, when `versioned` is set, prefixes the
single version marker (`pgcrypto/base.py` is not among the sources). -/
def armor (versioned : Bool) (xs : List Nat) : List Nat :=
  (if versioned then [VERSION_MARKER] else []) ++ b64encode xs

/-- Modelled from the spec: `dearmor(text, verify) -> bytes` strips and (when
`verify` is set) validates the version marker, then decodes the text-safe
alphabet, failing with a format error when decoding fails or the marker is
unrecognized. -/
def dearmor (versioned verify : Bool) (v : List Nat) : Except PyErr (List Nat) :=
  if versioned then
    match v with
    | [] => Except.error PyErr.decodeError
    | m :: rest =>
      if verify && (m ≠ VERSION_MARKER) then Except.error PyErr.badVersion
      else b64decode rest
  else b64decode v

/-- Tests whether an `Except` computation succeeded. -/
def exceptOk {ε α : Type} : Except ε α → Bool
  | Except.ok _ => true
  | Except.error _ => false

/-- Modelled from the spec: `is_encrypted(value) -> bool` returns true iff
the stored value parses as a valid armored envelope under the current
`versioned` setting (a decoding-success heuristic; an envelope is nonempty). -/
def is_encrypted (versioned : Bool) (v : List Nat) : Bool :=
  !v.isEmpty && exceptOk (dearmor versioned true v)

/-- Modelled from the spec: PKCS#7-style padding — append `n` bytes of value
`n`, where `n = blockSize - len % blockSize` (a full extra block when the
input is already aligned). -/
def pad (b : List Nat) (bs : Nat) : List Nat :=
  b ++ List.replicate (bs - b.length % bs) (bs - b.length % bs)

/-- Modelled from the spec: read the final byte as the padding count,
validate that the input is nonempty and block-aligned and the count lies in
`[1, blockSize]`, then strip exactly that many trailing bytes. -/
def unpad (b : List Nat) (bs : Nat) : Except PyErr (List Nat) :=
  if b.length = 0 ∨ b.length % bs ≠ 0 then Except.error PyErr.decodeError
  else
    match b.getLast? with
    | none => Except.error PyErr.decodeError
    | some n =>
      if 1 ≤ n ∧ n ≤ bs then Except.ok (b.take (b.length - n))
      else Except.error PyErr.decodeError

/-- Modelled from the spec: AES key material is padded/derived to a valid key
length (16, 24 or 32 bytes) before use — zero-extended to the next valid
length, truncated to 32 bytes when longer. -/
def aes_pad_key (k : List Nat) : List Nat :=
  if k.length ≤ 16 then k ++ List.replicate (16 - k.length) 0
  else if k.length ≤ 24 then k ++ List.replicate (24 - k.length) 0
  else if k.length ≤ 32 then k ++ List.replicate (32 - k.length) 0
  else k.take 32

/-- XOR of two blocks, pointwise (CBC chaining step). -/
def xorBlock (a b : List Nat) : List Nat :=
  List.zipWith Nat.xor a b

/-- CBC-mode encryption of `n` blocks of size `bs` with block primitive `E`
and chaining value `prev`: each plaintext block is XORed with the previous
ciphertext block before `E` (models Cryptodome `MODE_CBC`). -/
def cbcEncAux (E : List Nat → List Nat) (bs : Nat) : Nat → List Nat → List Nat → List Nat
  | 0, _, _ => []
  | n + 1, prev, xs =>
    let c := E (xorBlock prev (xs.take bs))
    c ++ cbcEncAux E bs n c (xs.drop bs)

/-- CBC-mode encryption with the all-zero IV that `Cipher.get_cipher`
passes to the library. -/
def cbcEncrypt (E : List Nat → List Nat) (bs : Nat) (xs : List Nat) : List Nat :=
  cbcEncAux E bs (xs.length / bs) (List.replicate bs 0) xs

/-- CBC-mode decryption of `n` blocks: each ciphertext block is decrypted by
`D` and XORed with the previous ciphertext block. -/
def cbcDecAux (D : List Nat → List Nat) (bs : Nat) : Nat → List Nat → List Nat → List Nat
  | 0, _, _ => []
  | n + 1, prev, xs =>
    xorBlock prev (D (xs.take bs)) ++ cbcDecAux D bs n (xs.take bs) (xs.drop bs)

/-- CBC-mode decryption with the all-zero IV. -/
def cbcDecrypt (D : List Nat → List Nat) (bs : Nat) (xs : List Nat) : List Nat :=
  cbcDecAux D bs (xs.length / bs) (List.replicate bs 0) xs

/-- The `settings.PGCRYPTO` options read by `fields.py`: `VALID_CIPHERS`
(default `("AES", "Blowfish")`), `CHECK_ARMOR` (default true), `VERSIONED`
(default false). -/
structure Settings where
  valid_ciphers : List String
  check_armor : Bool
  versioned : Bool
deriving DecidableEq, Repr

/-- The default settings values of `fields.py` lines 17-19. -/
def defaultSettings : Settings :=
  { valid_ciphers := ["AES", "Blowfish"], check_armor := true, versioned := false }

/-- A Python key value: either text (decoded via the charset by the
`cipher_key` setter) or raw bytes.  Both payloads are byte/code lists. -/
inductive KeyV where
  | text (s : List Nat)
  | bytes (b : List Nat)
deriving DecidableEq, Repr

/-- Byte view of a key value (the charset encoding is modelled as the
identity on code sequences). -/
def KeyV.toBytes : KeyV → List Nat
  | KeyV.text s => s
  | KeyV.bytes b => b

/-- Charset encoding used by the `cipher_key` setter on text keys, modelled
as the identity on code sequences. -/
def encodeCharset (_charset : String) (s : List Nat) : List Nat := s

/-- Charset decoding applied at the end of `Cipher.decrypt`, modelled as the
identity on byte sequences. -/
def decodeCharset (_charset : String) (s : List Nat) : List Nat := s

/-- The `Cipher` object's state: cipher name, the private `__cipher_key`
attribute, and the charset (`fields.py` lines 16-30). -/
structure Cipher where
  name : String
  cipherKey : KeyV
  charset : String
deriving DecidableEq, Repr

/-- `Cipher.__init__` (lines 21-30): asserts the name is among the valid
ciphers, then stores the key directly in `self.__cipher_key` (a plain
attribute write that does not go through the `cipher_key` property setter)
and records the charset.  The `__import__` of the Cryptodome module is
external and not modelled. -/
def Cipher.init (st : Settings) (name : String) (key : KeyV) (charset : String) :
    Except PyErr Cipher :=
  if name ∈ st.valid_ciphers then
    Except.ok { name := name, cipherKey := key, charset := charset }
  else Except.error PyErr.assertionError

/-- The `cipher_key` property setter (lines 36-43): for AES, text keys are
first encoded with the charset and the result is passed through
`aes_pad_key`; for any other cipher the assigned value is stored as-is. -/
def Cipher.setCipherKey (c : Cipher) (v : KeyV) : Cipher :=
  if c.name = "AES" then
    { c with cipherKey := KeyV.bytes (aes_pad_key
        (match v with
         | KeyV.text s => encodeCharset c.charset s
         | KeyV.bytes b => b)) }
  else { c with cipherKey := v }

/-- Block size of the selected Cryptodome cipher class:
`AES.block_size = 16`, `Blowfish.block_size = 8`. -/
def Cipher.block_size (c : Cipher) : Nat :=
  if c.name = "AES" then 16 else 8

/-- `Cipher.encrypt` (lines 53-63): encode the value with the charset
(values are carried as bytes here), pad to the block size, encrypt with a
fresh zero-IV CBC context over the stored key, and armor the result under
the `VERSIONED` setting. -/
def Cipher.encrypt (Efam : List Nat → List Nat → List Nat) (st : Settings)
    (c : Cipher) (value : List Nat) : List Nat :=
  let padded := pad value c.block_size
  let encrypted := cbcEncrypt (Efam c.cipherKey.toBytes) c.block_size padded
  armor st.versioned encrypted

/-- `Cipher.decrypt` (lines 65-75): dearmor under the `CHECK_ARMOR` setting,
decrypt with a fresh zero-IV CBC context over the stored key, unpad, and
decode with the charset. -/
def Cipher.decrypt (Dfam : List Nat → List Nat → List Nat) (st : Settings)
    (c : Cipher) (value : List Nat) : Except PyErr (List Nat) :=
  match dearmor st.versioned st.check_armor value with
  | Except.error e => Except.error e
  | Except.ok dearmored =>
    match unpad (cbcDecrypt (Dfam c.cipherKey.toBytes) c.block_size dearmored) c.block_size with
    | Except.error e => Except.error e
    | Except.ok unpadded => Except.ok (decodeCharset c.charset unpadded)

/-- A `BaseEncryptedField` instance: its `Cipher` and the class-level
`field_cast` SQL suffix (overridden by typed subclasses). -/
structure BaseEncryptedField where
  cipher : Cipher
  field_cast : String
deriving DecidableEq, Repr

/-- `BaseEncryptedField.to_python` (lines 110-113): decrypt when the stored
value is recognized as an envelope, otherwise return it unchanged. -/
def BaseEncryptedField.to_python (Dfam : List Nat → List Nat → List Nat)
    (st : Settings) (f : BaseEncryptedField) (value : List Nat) :
    Except PyErr (List Nat) :=
  if is_encrypted st.versioned value then f.cipher.decrypt Dfam st value
  else Except.ok value

/-- `BaseEncryptedField.from_db_value` (lines 115-118): assign
`context.get('cipher_key', self.cipher.cipher_key)` through the `cipher_key`
setter on the field's shared cipher, then run `to_python` on the updated
field.  Returns the mutated field together with the decoded value. -/
def BaseEncryptedField.from_db_value (Dfam : List Nat → List Nat → List Nat)
    (st : Settings) (f : BaseEncryptedField) (value : List Nat)
    (contextCipherKey : Option KeyV) :
    BaseEncryptedField × Except PyErr (List Nat) :=
  let f2 := { f with cipher := f.cipher.setCipherKey (contextCipherKey.getD f.cipher.cipherKey) }
  (f2, f2.to_python Dfam st value)

/-- `BaseEncryptedField.get_db_prep_save` (lines 120-129): encrypt when the
value is truthy (nonempty) and not already an envelope, otherwise store it
unchanged. -/
def BaseEncryptedField.get_db_prep_save (Efam : List Nat → List Nat → List Nat)
    (st : Settings) (f : BaseEncryptedField) (value : List Nat) : List Nat :=
  if !value.isEmpty && !is_encrypted st.versioned value then
    f.cipher.encrypt Efam st value
  else value

/-- The SQL-parameter list entries produced by the lookup translator: the
cipher key or an operand value. -/
inductive SqlParam where
  | key (k : KeyV)
  | val (v : List Nat)
deriving DecidableEq, Repr

/-- Python `%`-formatting of a one-placeholder template such as the
`connection.operators` entries (`"= %s"`, `"> %s"`, ...). -/
def pyFmt1 (fmt arg : String) : String :=
  fmt.replace "%s" arg

/-- A single-quote character as a one-character string (code 39). -/
def sqc : String := String.singleton (Char.ofNat 39)

/-- The fixed cipher-name-to-pgcrypto-function mapping of
`EncryptedLookup.as_postgresql` (lines 266-269). -/
def cipherSqlNames : List (String × String) := [("AES", "aes"), ("Blowfish", "bf")]

/-- `EncryptedLookup.as_postgresql` (lines 261-271): place the cipher key
between the column parameters and the operand parameters, render the
operator template over the operand placeholder, look the cipher name up in
the fixed mapping (a `KeyError` for any other name), and emit the
dearmor/decrypt/convert_from/cast comparison expression.  `lhs`/`rhs` and
their parameter lists come from `process_lhs`/`process_rhs`; `operators`
is the backend's operator-template table. -/
def EncryptedLookup.as_postgresql (f : BaseEncryptedField) (lookupName : String)
    (lhs : String) (lhsParams : List SqlParam) (rhs : String)
    (rhsParams : List SqlParam) (operators : String → String) :
    Except PyErr (String × List SqlParam) :=
  let params := lhsParams ++ [SqlParam.key f.cipher.cipherKey] ++ rhsParams
  let rhsOp := pyFmt1 (operators lookupName) rhs
  match cipherSqlNames.lookup f.cipher.name with
  | none => Except.error (PyErr.keyError f.cipher.name)
  | some cname =>
    Except.ok
      ("convert_from(decrypt(dearmor(" ++ lhs ++ "), %s, " ++ sqc ++ cname ++ sqc
        ++ "), " ++ sqc ++ "utf-8" ++ sqc ++ ")" ++ f.field_cast ++ " " ++ rhsOp,
       params)

/-- Python attribute lookup of `encrypt` on `self.lhs.output_field` in
`EncryptedLookup.as_sql` (line 279): `BaseEncryptedField` and its ancestors
define no attribute named `encrypt` (the cipher's method is only reachable
as `self.cipher.encrypt`), so the lookup raises `AttributeError`. -/
def getattrOutputFieldEncrypt (_f : BaseEncryptedField) :
    Except PyErr (SqlParam → SqlParam) :=
  Except.error (PyErr.attributeError "encrypt")

/-- `EncryptedLookup.as_sql` (lines 273-284), the generic/fallback backend:
raise `NotImplementedError` for any operator other than `exact` before
touching the operands; otherwise encrypt each operand via the
`output_field.encrypt` attribute (which does not exist, see
`getattrOutputFieldEncrypt`) and emit a ciphertext equality comparison. -/
def EncryptedLookup.as_sql (f : BaseEncryptedField) (lookupName : String)
    (lhs : String) (lhsParams : List SqlParam) (rhs : String)
    (rhsParams : List SqlParam) (operators : String → String) :
    Except PyErr (String × List SqlParam) :=
  if lookupName ≠ "exact" then
    Except.error (PyErr.notImplementedError lookupName)
  else
    match rhsParams.mapM (fun p =>
        match getattrOutputFieldEncrypt f with
        | Except.ok enc => Except.ok (enc p)
        | Except.error e => Except.error e) with
    | Except.error e => Except.error e
    | Except.ok rhsEnc =>
      Except.ok (lhs ++ pyFmt1 (operators lookupName) rhs, lhsParams ++ rhsEnc)

/-- Every alphabet index decodes back to itself. -/
lemma b64idx_b64chr : ∀ i, i < 64 → b64idx (b64chr i) = some i := by decide

/-- The text-safe decoding is a left inverse of the encoding on byte
sequences. -/
lemma b64decode_b64encode (xs : List Nat) (h : ∀ x ∈ xs, x < 256) :
    b64decode (b64encode xs) = Except.ok xs := by
  induction xs with
  | nil => rfl
  | cons b rest ih =>
    have hb : b < 256 := h b (List.mem_cons_self _ _)
    have h1 : b / 64 < 64 := by omega
    have h2 : b % 64 < 64 := by omega
    have h4 : b / 64 < 4 := by omega
    have hrest := ih (fun x hx => h x (List.mem_cons_of_mem _ hx))
    simp [b64encode, b64decode, b64idx_b64chr _ h1, b64idx_b64chr _ h2, h4, hrest,
      Nat.div_add_mod]

/-- Encoded byte sequences have even length (two characters per byte). -/
lemma b64encode_length (xs : List Nat) : (b64encode xs).length = 2 * xs.length := by
  induction xs with
  | nil => rfl
  | cons b rest ih => simp [b64encode, ih]; omega

/-- Dearmoring an armored value recovers the raw bytes, for any
`versioned`/`verify` flags (the marker written by `armor` always
validates). -/
lemma dearmor_armor (ver chk : Bool) (xs : List Nat) (h : ∀ x ∈ xs, x < 256) :
    dearmor ver chk (armor ver xs) = Except.ok xs := by
  cases ver with
  | false => simpa [armor, dearmor] using b64decode_b64encode xs h
  | true => cases chk <;> simp [armor, dearmor, b64decode_b64encode xs h]

/-- An armored ciphertext of at least one byte is a nonempty string. -/
lemma armor_ne_nil (ver : Bool) (xs : List Nat) (h : xs ≠ []) :
    armor ver xs ≠ [] := by
  cases ver with
  | true => simp [armor]
  | false =>
    cases xs with
    | nil => exact absurd rfl h
    | cons b rest => simp [armor, b64encode]

/-- Armored values pass the envelope detector. -/
lemma is_encrypted_armor (ver : Bool) (xs : List Nat) (hne : xs ≠ [])
    (h : ∀ x ∈ xs, x < 256) : is_encrypted ver (armor ver xs) = true := by
  have hd := dearmor_armor ver true xs h
  have hn := armor_ne_nil ver xs hne
  simp [is_encrypted, hd, exceptOk, List.isEmpty_iff, hn]

/-- Length of a padded value. -/
lemma pad_length (b : List Nat) (bs : Nat) :
    (pad b bs).length = b.length + (bs - b.length % bs) := by
  simp [pad]

/-- Padded values are block-aligned. -/
lemma pad_length_mod (b : List Nat) (bs : Nat) (h : 0 < bs) :
    (pad b bs).length % bs = 0 := by
  have hd := Nat.div_add_mod b.length bs
  have hr : b.length % bs < bs := Nat.mod_lt _ h
  have h1 : b.length + (bs - b.length % bs) = bs * (b.length / bs) + bs := by omega
  rw [pad_length, h1, ← Nat.mul_succ]
  exact Nat.mul_mod_right _ _
/-- Padding appends at least one byte. -/
lemma pad_count_pos (b : List Nat) (bs : Nat) (h : 0 < bs) :
    1 ≤ bs - b.length % bs := by
  have hr : b.length % bs < bs := Nat.mod_lt _ h
  omega

/-- A padded value is never empty. -/
lemma pad_ne_nil (b : List Nat) (bs : Nat) (h : 0 < bs) : pad b bs ≠ [] := by
  have := pad_count_pos b bs h
  intro hc
  have := congrArg List.length hc
  rw [pad_length] at this
  simp at this
  omega

/-- Padding keeps all entries below 256 when the block size is below 256. -/
lemma pad_bytes (b : List Nat) (bs : Nat) (hbs : bs < 256)
    (h : ∀ x ∈ b, x < 256) : ∀ x ∈ pad b bs, x < 256 := by
  intro x hx
  rcases List.mem_append.1 hx with hx | hx
  · exact h x hx
  · have := List.eq_of_mem_replicate hx
    omega

/-- Unpadding a padded value recovers it exactly. -/
lemma unpad_pad (b : List Nat) (bs : Nat) (h : 0 < bs) :
    unpad (pad b bs) bs = Except.ok b := by
  have hr : b.length % bs < bs := Nat.mod_lt _ h
  have hmod := pad_length_mod b bs h
  have hlenpos : (pad b bs).length ≠ 0 := by
    rw [pad_length]; omega
  obtain ⟨m, hm⟩ : ∃ m, bs - b.length % bs = m + 1 := ⟨bs - b.length % bs - 1, by omega⟩
  have hsplit : pad b bs = (b ++ List.replicate m (bs - b.length % bs)) ++ [bs - b.length % bs] := by
    simp [pad, hm, List.replicate_succ', List.append_assoc]
  have hlast : (pad b bs).getLast? = some (bs - b.length % bs) := by
    rw [hsplit, List.getLast?_concat]
  have hcount : 1 ≤ bs - b.length % bs ∧ bs - b.length % bs ≤ bs := by omega
  have htake : (pad b bs).take ((pad b bs).length - (bs - b.length % bs)) = b := by
    have hlen2 : (pad b bs).length - (bs - b.length % bs) = b.length := by
      rw [pad_length]; omega
    rw [hlen2, pad, List.take_left]
  rw [unpad]
  simp only [hlenpos, hmod, hlast, hcount, and_true, true_and, if_true, if_false,
    not_true, or_self, ite_false, ite_true]
  simp [htake, hcount]

/-- A block primitive that maps byte blocks of size `bs` to byte blocks of
size `bs` (the shape guaranteed by the Cryptodome block ciphers). -/
def GoodBlock (E : List Nat → List Nat) (bs : Nat) : Prop :=
  ∀ blk : List Nat, blk.length = bs → (∀ x ∈ blk, x < 256) →
    (E blk).length = bs ∧ ∀ x ∈ E blk, x < 256

/-- `D` undoes `E` on byte blocks of size `bs` (decryption is the inverse of
encryption under the same key). -/
def InverseOn (E D : List Nat → List Nat) (bs : Nat) : Prop :=
  ∀ blk : List Nat, blk.length = bs → (∀ x ∈ blk, x < 256) → D (E blk) = blk

lemma xorBlock_length (a b : List Nat) :
    (xorBlock a b).length = min a.length b.length := by
  simp [xorBlock]

lemma xorBlock_bytes (a b : List Nat) (ha : ∀ x ∈ a, x < 256)
    (hb : ∀ x ∈ b, x < 256) : ∀ x ∈ xorBlock a b, x < 256 := by
  induction a generalizing b with
  | nil => simp [xorBlock]
  | cons x xs ih =>
    cases b with
    | nil => simp [xorBlock]
    | cons y ys =>
      intro z hz
      simp only [xorBlock, List.zipWith_cons_cons, List.mem_cons] at hz
      rcases hz with rfl | hz
      · have hx : x < 2 ^ 8 := ha x (List.mem_cons_self _ _)
        have hy : y < 2 ^ 8 := hb y (List.mem_cons_self _ _)
        exact Nat.xor_lt_two_pow hx hy
      · exact ih ys (fun u hu => ha u (List.mem_cons_of_mem _ hu))
          (fun u hu => hb u (List.mem_cons_of_mem _ hu)) z hz

lemma xorBlock_xorBlock (a b : List Nat) (h : a.length = b.length) :
    xorBlock a (xorBlock a b) = b := by
  induction a generalizing b with
  | nil =>
    cases b with
    | nil => rfl
    | cons y ys => simp at h
  | cons x xs ih =>
    cases b with
    | nil => simp at h
    | cons y ys =>
      simp only [List.length_cons, Nat.succ.injEq] at h
      have hx : Nat.xor x (Nat.xor x y) = y := Nat.xor_cancel_left x y
      simp only [xorBlock, List.zipWith_cons_cons, hx]
      have htail := ih ys h
      simp only [xorBlock] at htail
      rw [htail]

/-- Shape of CBC encryption: with a well-behaved block primitive, `n` blocks
of plaintext produce `n * bs` ciphertext bytes, all below 256. -/
lemma cbcEncAux_spec (E : List Nat → List Nat) (bs : Nat) (hE : GoodBlock E bs)
    (_hbs : 0 < bs) :
    ∀ n prev xs, prev.length = bs → (∀ x ∈ prev, x < 256) →
      n * bs ≤ xs.length → (∀ x ∈ xs, x < 256) →
      (cbcEncAux E bs n prev xs).length = n * bs ∧
        ∀ x ∈ cbcEncAux E bs n prev xs, x < 256 := by
  intro n
  induction n with
  | zero => intro prev xs _ _ _ _; simp [cbcEncAux]
  | succ n ih =>
    intro prev xs hplen hpbytes hlen hbytes
    have hbs_le : bs ≤ xs.length := by
      have : bs ≤ (n + 1) * bs := by
        calc bs = 1 * bs := (Nat.one_mul bs).symm
        _ ≤ (n + 1) * bs := Nat.mul_le_mul_right bs (by omega)
      omega
    have htake_len : (xs.take bs).length = bs := by
      simp [List.length_take]; omega
    have htake_bytes : ∀ x ∈ xs.take bs, x < 256 :=
      fun x hx => hbytes x (List.mem_of_mem_take hx)
    have hx_len : (xorBlock prev (xs.take bs)).length = bs := by
      rw [xorBlock_length, hplen, htake_len]; omega
    have hx_bytes := xorBlock_bytes prev (xs.take bs) hpbytes htake_bytes
    obtain ⟨hc_len, hc_bytes⟩ := hE _ hx_len hx_bytes
    have hdrop_len : n * bs ≤ (xs.drop bs).length := by
      simp [List.length_drop]
      have : (n + 1) * bs = n * bs + bs := by ring
      omega
    have hdrop_bytes : ∀ x ∈ xs.drop bs, x < 256 :=
      fun x hx => hbytes x (List.mem_of_mem_drop hx)
    obtain ⟨ih_len, ih_bytes⟩ := ih (E (xorBlock prev (xs.take bs))) (xs.drop bs)
      hc_len hc_bytes hdrop_len hdrop_bytes
    constructor
    · simp only [cbcEncAux, List.length_append, hc_len, ih_len]
      ring
    · intro x hx
      simp only [cbcEncAux, List.mem_append] at hx
      rcases hx with hx | hx
      · exact hc_bytes x hx
      · exact ih_bytes x hx

/-- CBC decryption undoes CBC encryption block by block, for any common
chaining value. -/
lemma cbcDecAux_cbcEncAux (E D : List Nat → List Nat) (bs : Nat)
    (hE : GoodBlock E bs) (hD : InverseOn E D bs) (_hbs : 0 < bs) :
    ∀ n prev xs, prev.length = bs → (∀ x ∈ prev, x < 256) →
      xs.length = n * bs → (∀ x ∈ xs, x < 256) →
      cbcDecAux D bs n prev (cbcEncAux E bs n prev xs) = xs := by
  intro n
  induction n with
  | zero =>
    intro prev xs _ _ hlen _
    simp only [Nat.zero_mul] at hlen
    simp [cbcEncAux, cbcDecAux, List.eq_nil_of_length_eq_zero hlen]
  | succ n ih =>
    intro prev xs hplen hpbytes hlen hbytes
    have hbs_le : bs ≤ xs.length := by
      have : bs ≤ (n + 1) * bs := by
        calc bs = 1 * bs := (Nat.one_mul bs).symm
        _ ≤ (n + 1) * bs := Nat.mul_le_mul_right bs (by omega)
      omega
    have htake_len : (xs.take bs).length = bs := by
      simp [List.length_take]; omega
    have htake_bytes : ∀ x ∈ xs.take bs, x < 256 :=
      fun x hx => hbytes x (List.mem_of_mem_take hx)
    have hx_len : (xorBlock prev (xs.take bs)).length = bs := by
      rw [xorBlock_length, hplen, htake_len]; omega
    have hx_bytes := xorBlock_bytes prev (xs.take bs) hpbytes htake_bytes
    obtain ⟨hc_len, hc_bytes⟩ := hE _ hx_len hx_bytes
    have hdrop_len : (xs.drop bs).length = n * bs := by
      simp [List.length_drop]
      have : (n + 1) * bs = n * bs + bs := by ring
      omega
    have hdrop_bytes : ∀ x ∈ xs.drop bs, x < 256 :=
      fun x hx => hbytes x (List.mem_of_mem_drop hx)
    have hD_eq : D (E (xorBlock prev (xs.take bs))) = xorBlock prev (xs.take bs) :=
      hD _ hx_len hx_bytes
    set c := E (xorBlock prev (xs.take bs)) with hc_def
    have htail := ih c (xs.drop bs) hc_len hc_bytes hdrop_len hdrop_bytes
    have htake_c : (c ++ cbcEncAux E bs n c (xs.drop bs)).take bs = c := by
      rw [← hc_len, List.take_left]
    have hdrop_c : (c ++ cbcEncAux E bs n c (xs.drop bs)).drop bs = cbcEncAux E bs n c (xs.drop bs) := by
      rw [← hc_len, List.drop_left]
    simp only [cbcEncAux, cbcDecAux, ← hc_def, htake_c, hdrop_c, hD_eq, htail]
    rw [xorBlock_xorBlock prev (xs.take bs) (by rw [hplen, htake_len]),
      List.take_append_drop]

/-- CBC ciphertext has the same length as the (block-aligned) plaintext and
stays within bytes. -/
lemma cbcEncrypt_spec (E : List Nat → List Nat) (bs : Nat) (hE : GoodBlock E bs)
    (hbs : 0 < bs) (xs : List Nat) (hmod : xs.length % bs = 0)
    (hbytes : ∀ x ∈ xs, x < 256) :
    (cbcEncrypt E bs xs).length = xs.length ∧ ∀ x ∈ cbcEncrypt E bs xs, x < 256 := by
  have hdvd : xs.length / bs * bs = xs.length :=
    Nat.div_mul_cancel (Nat.dvd_of_mod_eq_zero hmod)
  have hiv_len : (List.replicate bs 0).length = bs := List.length_replicate bs 0
  have hiv_bytes : ∀ x ∈ List.replicate bs 0, x < 256 := by
    intro x hx
    have := List.eq_of_mem_replicate hx
    omega
  have h := cbcEncAux_spec E bs hE hbs (xs.length / bs) (List.replicate bs 0) xs
    hiv_len hiv_bytes (by omega) hbytes
  rw [cbcEncrypt]
  exact ⟨by rw [h.1, hdvd], h.2⟩

/-- CBC decryption with the matching key undoes CBC encryption on
block-aligned byte input. -/
lemma cbcDecrypt_cbcEncrypt (E D : List Nat → List Nat) (bs : Nat)
    (hE : GoodBlock E bs) (hD : InverseOn E D bs) (hbs : 0 < bs)
    (xs : List Nat) (hmod : xs.length % bs = 0) (hbytes : ∀ x ∈ xs, x < 256) :
    cbcDecrypt D bs (cbcEncrypt E bs xs) = xs := by
  have hdvd : xs.length / bs * bs = xs.length :=
    Nat.div_mul_cancel (Nat.dvd_of_mod_eq_zero hmod)
  have hlen := (cbcEncrypt_spec E bs hE hbs xs hmod hbytes).1
  have hiv_len : (List.replicate bs 0).length = bs := List.length_replicate bs 0
  have hiv_bytes : ∀ x ∈ List.replicate bs 0, x < 256 := by
    intro x hx
    have := List.eq_of_mem_replicate hx
    omega
  have hround := cbcDecAux_cbcEncAux E D bs hE hD hbs (xs.length / bs)
    (List.replicate bs 0) xs hiv_len hiv_bytes (by omega) hbytes
  rw [cbcDecrypt, hlen]
  exact hround

lemma Cipher.block_size_pos (c : Cipher) : 0 < c.block_size := by
  rw [Cipher.block_size]
  split <;> omega

lemma Cipher.block_size_lt (c : Cipher) : c.block_size < 256 := by
  rw [Cipher.block_size]
  split <;> omega

/-- Core round-trip: with the stored key's block primitive well-behaved and
invertible, `Cipher.decrypt` undoes `Cipher.encrypt` on any byte value. -/
lemma Cipher.decrypt_encrypt (Efam Dfam : List Nat → List Nat → List Nat)
    (st : Settings) (c : Cipher)
    (hE : GoodBlock (Efam c.cipherKey.toBytes) c.block_size)
    (hD : InverseOn (Efam c.cipherKey.toBytes) (Dfam c.cipherKey.toBytes) c.block_size)
    (v : List Nat) (hv : ∀ x ∈ v, x < 256) :
    c.decrypt Dfam st (c.encrypt Efam st v) = Except.ok v := by
  have hbs := c.block_size_pos
  have hbs256 := c.block_size_lt
  have hpad_bytes := pad_bytes v c.block_size hbs256 hv
  have hpad_mod := pad_length_mod v c.block_size hbs
  have hcipher_bytes := (cbcEncrypt_spec _ c.block_size hE hbs _ hpad_mod hpad_bytes).2
  have hdearmor := dearmor_armor st.versioned st.check_armor
    (cbcEncrypt (Efam c.cipherKey.toBytes) c.block_size (pad v c.block_size))
    hcipher_bytes
  have hcbc := cbcDecrypt_cbcEncrypt _ _ c.block_size hE hD hbs _ hpad_mod hpad_bytes
  have hunpad := unpad_pad v c.block_size hbs
  rw [Cipher.encrypt, Cipher.decrypt]
  simp only [hdearmor, hcbc, hunpad, decodeCharset]

/-- Encrypted values are recognized by the envelope detector and are
nonempty. -/
lemma Cipher.encrypt_detected (Efam : List Nat → List Nat → List Nat)
    (st : Settings) (c : Cipher)
    (hE : GoodBlock (Efam c.cipherKey.toBytes) c.block_size)
    (v : List Nat) (hv : ∀ x ∈ v, x < 256) :
    is_encrypted st.versioned (c.encrypt Efam st v) = true ∧
      c.encrypt Efam st v ≠ [] := by
  have hbs := c.block_size_pos
  have hbs256 := c.block_size_lt
  have hpad_bytes := pad_bytes v c.block_size hbs256 hv
  have hpad_mod := pad_length_mod v c.block_size hbs
  obtain ⟨hlen, hbytes⟩ := cbcEncrypt_spec _ c.block_size hE hbs _ hpad_mod hpad_bytes
  have hpadlen : (pad v c.block_size).length ≠ 0 := by
    have h1 := pad_count_pos v c.block_size hbs
    rw [pad_length]
    omega
  have hne : cbcEncrypt (Efam c.cipherKey.toBytes) c.block_size (pad v c.block_size) ≠ [] := by
    intro hc
    rw [hc] at hlen
    exact hpadlen hlen.symm
  refine ⟨?_, ?_⟩
  · exact is_encrypted_armor st.versioned _ hne hbytes
  · exact armor_ne_nil st.versioned _ hne

/-- Block primitive family used in concrete witnesses: the identity
permutation on each block, for every key (a legitimate instance of
`GoodBlock`/`InverseOn`). -/
def idFam : List Nat → List Nat → List Nat := fun _ blk => blk

/-- UTF-8 bytes of the text `"hello world"` (the spec's scenario input). -/
def helloWorldBytes : List Nat := [104, 101, 108, 108, 111, 32, 119, 111, 114, 108, 100]

/-- A 32-byte AES key for concrete witnesses. -/
def aesKey32 : List Nat := List.replicate 32 107

/-- An AES `Cipher` with a 32-byte key and charset UTF-8, for witnesses. -/
def aesCipherW : Cipher :=
  { name := "AES", cipherKey := KeyV.bytes aesKey32, charset := "utf-8" }

/-- An encrypted field over `aesCipherW` with no SQL cast, for witnesses. -/
def someFieldW : BaseEncryptedField := { cipher := aesCipherW, field_cast := "" }

/-- Byte view of an assigned key value as the `cipher_key` setter sees it:
text keys are charset-encoded first, byte keys are used directly. -/
def keyToBytesVia (charset : String) : KeyV → List Nat
  | KeyV.text s => encodeCharset charset s
  | KeyV.bytes b => b

/-- C1: for every plaintext byte value encoded with the configured charset,
under a fixed key and cipher configuration whose block primitive is
well-behaved and invertible, `Cipher.decrypt` returns exactly the value
`Cipher.encrypt` was given — decrypt is a left inverse of encrypt. -/
theorem C1_decrypt_left_inverse_of_encrypt
    (Efam Dfam : List Nat → List Nat → List Nat) (st : Settings) (c : Cipher)
    (hE : GoodBlock (Efam c.cipherKey.toBytes) c.block_size)
    (hD : InverseOn (Efam c.cipherKey.toBytes) (Dfam c.cipherKey.toBytes) c.block_size)
    (v : List Nat) (hv : ∀ x ∈ v, x < 256) :
    c.decrypt Dfam st (c.encrypt Efam st v) = Except.ok v :=
  Cipher.decrypt_encrypt Efam Dfam st c hE hD v hv

/-- Witness for C1: the spec's scenario — `"hello world"` under a 32-byte
AES key, charset UTF-8, versioning off, round-trips. -/
theorem C1_witness :
    Cipher.decrypt idFam defaultSettings aesCipherW
      (Cipher.encrypt idFam defaultSettings aesCipherW helloWorldBytes) =
      Except.ok helloWorldBytes :=
  C1_decrypt_left_inverse_of_encrypt idFam idFam defaultSettings aesCipherW
    (fun _blk h1 h2 => ⟨h1, h2⟩) (fun _blk _ _ => rfl) helloWorldBytes (by decide)

/-- C2: `Cipher.encrypt` is armor after CBC-encrypt after pad, and
`Cipher.decrypt` is unpad (then charset decode) after CBC-decrypt after
dearmor, in exactly that order. -/
theorem C2_encrypt_decrypt_composition
    (Efam Dfam : List Nat → List Nat → List Nat) (st : Settings) (c : Cipher)
    (v e : List Nat) :
    c.encrypt Efam st v =
      armor st.versioned
        (cbcEncrypt (Efam c.cipherKey.toBytes) c.block_size (pad v c.block_size)) ∧
    c.decrypt Dfam st e =
      (dearmor st.versioned st.check_armor e).bind
        (fun d => Except.map (decodeCharset c.charset)
          (unpad (cbcDecrypt (Dfam c.cipherKey.toBytes) c.block_size d) c.block_size)) := by
  refine ⟨rfl, ?_⟩
  simp only [Cipher.decrypt]
  cases hd : dearmor st.versioned st.check_armor e with
  | error er => rfl
  | ok d =>
    cases hu : unpad (cbcDecrypt (Dfam c.cipherKey.toBytes) c.block_size d) c.block_size with
    | error er => simp [hu, Except.bind, Except.map]
    | ok u => simp [hu, Except.bind, Except.map]

/-- C3: a stored value that the envelope detector rejects is returned
unchanged by `to_python`, without any cipher call or error. -/
theorem C3_to_python_passthrough (Dfam : List Nat → List Nat → List Nat)
    (st : Settings) (f : BaseEncryptedField) (v : List Nat)
    (h : is_encrypted st.versioned v = false) :
    f.to_python Dfam st v = Except.ok v := by
  simp [BaseEncryptedField.to_python, h]

/-- Witness for C3: the raw plaintext `"hello world"` is not detected as an
envelope and passes through unchanged. -/
theorem C3_witness :
    is_encrypted defaultSettings.versioned helloWorldBytes = false ∧
    someFieldW.to_python idFam defaultSettings helloWorldBytes =
      Except.ok helloWorldBytes :=
  ⟨by decide,
   C3_to_python_passthrough idFam defaultSettings someFieldW helloWorldBytes (by decide)⟩

/-- C4: `get_db_prep_save` returns an already-encrypted envelope unchanged,
and (with a well-behaved block primitive) preparing a byte value for save
twice yields the same stored string as preparing it once. -/
theorem C4_prep_save_never_reencrypts (Efam : List Nat → List Nat → List Nat)
    (st : Settings) (f : BaseEncryptedField) (v : List Nat)
    (hE : GoodBlock (Efam f.cipher.cipherKey.toBytes) f.cipher.block_size)
    (hv : ∀ x ∈ v, x < 256) :
    (is_encrypted st.versioned v = true → f.get_db_prep_save Efam st v = v) ∧
    f.get_db_prep_save Efam st (f.get_db_prep_save Efam st v) =
      f.get_db_prep_save Efam st v := by
  constructor
  · intro h
    simp [BaseEncryptedField.get_db_prep_save, h]
  · by_cases hcond : (!v.isEmpty && !is_encrypted st.versioned v) = true
    · obtain ⟨hdet, hne⟩ := Cipher.encrypt_detected Efam st f.cipher hE v hv
      have hstep : f.get_db_prep_save Efam st v = f.cipher.encrypt Efam st v := by
        simp [BaseEncryptedField.get_db_prep_save, hcond]
      rw [hstep]
      simp [BaseEncryptedField.get_db_prep_save, hdet]
    · have hstep : f.get_db_prep_save Efam st v = v := by
        simp only [BaseEncryptedField.get_db_prep_save]
        rw [if_neg (by simpa using hcond)]
      rw [hstep, hstep]

/-- Witness for C4: a concrete envelope is left unchanged by
`get_db_prep_save`, and preparing the plaintext `"hello world"` twice equals
preparing it once. -/
theorem C4_witness :
    (is_encrypted defaultSettings.versioned helloWorldBytes = true →
      someFieldW.get_db_prep_save idFam defaultSettings helloWorldBytes =
        helloWorldBytes) ∧
    someFieldW.get_db_prep_save idFam defaultSettings
        (someFieldW.get_db_prep_save idFam defaultSettings helloWorldBytes) =
      someFieldW.get_db_prep_save idFam defaultSettings helloWorldBytes :=
  C4_prep_save_never_reencrypts idFam defaultSettings someFieldW helloWorldBytes
    (fun _blk h1 h2 => ⟨h1, h2⟩) (by decide)

/-- C5 (code evidence): on the fallback backend, an `exact` lookup with one
plaintext operand raises `AttributeError` instead of encrypting the operand,
because `BaseEncryptedField` has no `encrypt` attribute (the method the code
reaches for on line 279; the cipher's method is only `self.cipher.encrypt`). -/
theorem C5_as_sql_attribute_error :
    EncryptedLookup.as_sql someFieldW "exact" "T.col" [] "%s"
      [SqlParam.val helloWorldBytes] (fun _ => "= %s") =
      Except.error (PyErr.attributeError "encrypt") := rfl

/-- The `Cipher` produced by constructing with cipher name AES and the raw
one-byte key `[1]` (used to exhibit C6's failure). -/
def cipherRawKeyW : Cipher :=
  { name := "AES", cipherKey := KeyV.bytes [1], charset := "utf-8" }

/-- Counterexample to C6 as stated: constructing an AES `Cipher` with the
one-byte key `[1]` stores the raw key unchanged — `Cipher.__init__` writes
`self.__cipher_key` directly and does not pass the key through
`aes_pad_key`, so the stored key differs from the derived key the claim
predicts. -/
theorem C6_counterexample :
    Cipher.init defaultSettings "AES" (KeyV.bytes [1]) "utf-8" =
      Except.ok cipherRawKeyW ∧
    cipherRawKeyW.cipherKey ≠ KeyV.bytes (aes_pad_key [1]) :=
  ⟨rfl, by decide⟩

/-- C6 amended: the `cipher_key` setter derives assigned AES keys (text keys
charset-encoded first) through `aes_pad_key` and stores non-AES keys as-is,
but construction stores the raw key without any derivation. -/
theorem C6_setter_derives_key_construction_does_not (st : Settings)
    (name : String) (key v : KeyV) (charset : String) (c : Cipher)
    (h : Cipher.init st name key charset = Except.ok c) :
    c.cipherKey = key ∧
    (c.setCipherKey v).cipherKey =
      (if c.name = "AES" then KeyV.bytes (aes_pad_key (keyToBytesVia c.charset v))
       else v) := by
  constructor
  · rw [Cipher.init] at h
    split at h
    · injection h with h2
      rw [← h2]
    · exact absurd h (by simp)
  · by_cases hn : c.name = "AES"
    · cases v <;> simp [Cipher.setCipherKey, hn, keyToBytesVia]
    · simp [Cipher.setCipherKey, hn]

/-- Witness for the amended C6: at construction the stored key is the raw
`[1]`, while assigning the one-byte text key `[107]` through the setter
stores `aes_pad_key` of its charset encoding. -/
theorem C6_witness :
    cipherRawKeyW.cipherKey = KeyV.bytes [1] ∧
    (cipherRawKeyW.setCipherKey (KeyV.text [107])).cipherKey =
      (if cipherRawKeyW.name = "AES" then
        KeyV.bytes (aes_pad_key (keyToBytesVia cipherRawKeyW.charset (KeyV.text [107])))
       else KeyV.text [107]) :=
  C6_setter_derives_key_construction_does_not defaultSettings "AES"
    (KeyV.bytes [1]) (KeyV.text [107]) "utf-8" cipherRawKeyW rfl

/-- C7: on the fallback backend, `as_sql` raises `NotImplementedError` for
every operator other than `exact` — for all operands, fields and operator
tables, so the failure precedes any cipher or decode work. -/
theorem C7_as_sql_rejects_non_exact (f : BaseEncryptedField) (op lhs : String)
    (lhsParams : List SqlParam) (rhs : String) (rhsParams : List SqlParam)
    (operators : String → String)
    (h : op = "gt" ∨ op = "gte" ∨ op = "lt" ∨ op = "lte") :
    EncryptedLookup.as_sql f op lhs lhsParams rhs rhsParams operators =
      Except.error (PyErr.notImplementedError op) := by
  have hne : op ≠ "exact" := by
    rcases h with rfl | rfl | rfl | rfl <;> decide
  simp [EncryptedLookup.as_sql, hne]

/-- Witness for C7: a `gt` lookup on the fallback backend fails with
`NotImplementedError` at query construction. -/
theorem C7_witness :
    EncryptedLookup.as_sql someFieldW "gt" "T.col" [] "%s"
      [SqlParam.val helloWorldBytes] (fun _ => "> %s") =
      Except.error (PyErr.notImplementedError "gt") :=
  C7_as_sql_rejects_non_exact someFieldW "gt" "T.col" [] "%s"
    [SqlParam.val helloWorldBytes] (fun _ => "> %s") (Or.inl rfl)

/-- A field whose cipher name is outside the fixed mapping of
`as_postgresql` (used to exhibit the configuration error). -/
def desFieldW : BaseEncryptedField :=
  { cipher := { name := "DES", cipherKey := KeyV.bytes [1], charset := "utf-8" },
    field_cast := "" }

/-- C8: in decrypt-expression mode `as_postgresql` emits the
dearmor/decrypt/convert_from/cast comparison with the cipher name taken from
the fixed mapping, binds the cipher key immediately before the operand
parameters, keeps the emitted SQL text independent of the operand values,
and fails with a `KeyError` for a cipher name outside the mapping. -/
theorem C8_as_postgresql_decrypt_expression (f g : BaseEncryptedField)
    (lookupName lhs : String) (lhsParams : List SqlParam) (rhs : String)
    (rhsParams rhsParams2 : List SqlParam) (operators : String → String)
    (cname : String) (h : cipherSqlNames.lookup f.cipher.name = some cname)
    (hg : cipherSqlNames.lookup g.cipher.name = none) :
    EncryptedLookup.as_postgresql f lookupName lhs lhsParams rhs rhsParams operators =
      Except.ok
        ("convert_from(decrypt(dearmor(" ++ lhs ++ "), %s, " ++ sqc ++ cname ++ sqc
          ++ "), " ++ sqc ++ "utf-8" ++ sqc ++ ")" ++ f.field_cast ++ " "
          ++ pyFmt1 (operators lookupName) rhs,
         lhsParams ++ [SqlParam.key f.cipher.cipherKey] ++ rhsParams) ∧
    Except.map Prod.fst
        (EncryptedLookup.as_postgresql f lookupName lhs lhsParams rhs rhsParams2 operators) =
      Except.map Prod.fst
        (EncryptedLookup.as_postgresql f lookupName lhs lhsParams rhs rhsParams operators) ∧
    EncryptedLookup.as_postgresql g lookupName lhs lhsParams rhs rhsParams operators =
      Except.error (PyErr.keyError g.cipher.name) := by
  refine ⟨?_, ?_, ?_⟩
  · simp [EncryptedLookup.as_postgresql, h]
  · simp [EncryptedLookup.as_postgresql, h, Except.map]
  · simp [EncryptedLookup.as_postgresql, hg]

/-- Witness for C8: a concrete `gt` lookup against the AES field produces
the decrypt-cast-compare expression with bound key and operand, its SQL text
ignores the operand values, and the `DES` field raises `KeyError`. -/
theorem C8_witness :
    EncryptedLookup.as_postgresql someFieldW "gt" "T.col" [] "%s"
        [SqlParam.val helloWorldBytes] (fun _ => "> %s") =
      Except.ok
        ("convert_from(decrypt(dearmor(" ++ "T.col" ++ "), %s, " ++ sqc ++ "aes" ++ sqc
          ++ "), " ++ sqc ++ "utf-8" ++ sqc ++ ")" ++ someFieldW.field_cast ++ " "
          ++ pyFmt1 ((fun _ => "> %s") "gt") "%s",
         [] ++ [SqlParam.key someFieldW.cipher.cipherKey] ++ [SqlParam.val helloWorldBytes]) ∧
    Except.map Prod.fst
        (EncryptedLookup.as_postgresql someFieldW "gt" "T.col" [] "%s"
          [SqlParam.val [0]] (fun _ => "> %s")) =
      Except.map Prod.fst
        (EncryptedLookup.as_postgresql someFieldW "gt" "T.col" [] "%s"
          [SqlParam.val helloWorldBytes] (fun _ => "> %s")) ∧
    EncryptedLookup.as_postgresql desFieldW "gt" "T.col" [] "%s"
        [SqlParam.val helloWorldBytes] (fun _ => "> %s") =
      Except.error (PyErr.keyError desFieldW.cipher.name) :=
  C8_as_postgresql_decrypt_expression someFieldW desFieldW "gt" "T.col" [] "%s"
    [SqlParam.val helloWorldBytes] [SqlParam.val [0]] (fun _ => "> %s") "aes"
    rfl rfl

/-- C9: encryption is deterministic and injective — with a fixed key, cipher
configuration and version flag, two byte values encrypt to the same envelope
exactly when they are equal. -/
theorem C9_encrypt_deterministic_injective
    (Efam Dfam : List Nat → List Nat → List Nat) (st : Settings) (c : Cipher)
    (hE : GoodBlock (Efam c.cipherKey.toBytes) c.block_size)
    (hD : InverseOn (Efam c.cipherKey.toBytes) (Dfam c.cipherKey.toBytes) c.block_size)
    (v1 v2 : List Nat) (h1 : ∀ x ∈ v1, x < 256) (h2 : ∀ x ∈ v2, x < 256) :
    c.encrypt Efam st v1 = c.encrypt Efam st v2 ↔ v1 = v2 := by
  constructor
  · intro h
    have r1 := Cipher.decrypt_encrypt Efam Dfam st c hE hD v1 h1
    have r2 := Cipher.decrypt_encrypt Efam Dfam st c hE hD v2 h2
    rw [h, r2] at r1
    injection r1 with h3
    exact h3.symm
  · intro h
    rw [h]

/-- Witness for C9: two distinct one-byte plaintexts yield distinct
envelopes (the iff instantiated at `[0]` and `[1]`). -/
theorem C9_witness :
    (aesCipherW.encrypt idFam defaultSettings [0] =
      aesCipherW.encrypt idFam defaultSettings [1]) ↔ ([0] : List Nat) = [1] :=
  C9_encrypt_deterministic_injective idFam idFam defaultSettings aesCipherW
    (fun _blk ha hb => ⟨ha, hb⟩) (fun _blk _ _ => rfl) [0] [1] (by decide) (by decide)

/-- C10: `from_db_value` pushes the per-query context key (or, absent an
override, the current key) through the `cipher_key` setter on the field's
shared cipher before decoding, so the mutated cipher configuration is what
decodes the value and is what the field carries afterwards. -/
theorem C10_from_db_value_mutates_shared_cipher
    (Dfam : List Nat → List Nat → List Nat) (st : Settings)
    (f : BaseEncryptedField) (v : List Nat) (ctx : Option KeyV) :
    (f.from_db_value Dfam st v ctx).1.cipher =
      f.cipher.setCipherKey (ctx.getD f.cipher.cipherKey) ∧
    (f.from_db_value Dfam st v ctx).2 =
      BaseEncryptedField.to_python Dfam st (f.from_db_value Dfam st v ctx).1 v :=
  ⟨rfl, rfl⟩
